import Mathlib

/-!
Verification of the incremental test-block parser and merger of the
`test-automation` repository (source files `src/ai/testFileParser.ts` and
`src/scripts/syncFromCodebase.ts`).

Strings are modelled as `List Char` (`Str`).  JavaScript string primitives
(`indexOf`, `substring`, `trim`, `split`, `join`, `includes`, `toLowerCase`,
`startsWith`) are modelled by the functions in the first section; machine
integers of the source are `Int` where JavaScript arithmetic can go negative
(paren/brace depth counters, `indexOf` results) and `Nat` for plain indices.
All definitions are executable and structural, so concrete runs can be
settled by `decide`.
-/

/-! ## Definitions: embedding of the source and auxiliary notions -/

abbrev Str := List Char

/-- The newline character, the line separator used by the source's
`split("\n")` / `join("\n")` calls. -/
def nlChar : Char := Char.ofNat 10

/-- Opening brace character (written via its code point). -/
def lbrace : Char := Char.ofNat 123

/-- Closing brace character (written via its code point). -/
def rbrace : Char := Char.ofNat 125

/-- Single quote character. -/
def sqChar : Char := Char.ofNat 39

/-- Double quote character. -/
def dqChar : Char := Char.ofNat 34

/-- Backtick character. -/
def btChar : Char := Char.ofNat 96

/-- ASCII whitespace as matched by the source's `/\s/` tests and `trim`
calls (space, tab, newline, carriage return, vertical tab, form feed).
The JavaScript originals also match rare Unicode spaces; the files this
tool processes are ASCII, so the ASCII subset is the faithful model. -/
def isJsWS (c : Char) : Bool :=
  c = Char.ofNat 32 || c = Char.ofNat 9 || c = nlChar || c = Char.ofNat 13 ||
  c = Char.ofNat 11 || c = Char.ofNat 12

/-- Word characters of the regex class `\w`: ASCII letters, digits and
underscore. -/
def isWordChar (c : Char) : Bool :=
  (Char.ofNat 97 ≤ c && c ≤ Char.ofNat 122) ||
  (Char.ofNat 65 ≤ c && c ≤ Char.ofNat 90) ||
  (Char.ofNat 48 ≤ c && c ≤ Char.ofNat 57) ||
  c = Char.ofNat 95

/-- ASCII lower-casing of one character, as `toLowerCase` acts on the
ASCII titles and names this tool handles. -/
def toLowerChar (c : Char) : Char :=
  if Char.ofNat 65 ≤ c && c ≤ Char.ofNat 90 then Char.ofNat (c.toNat + 32) else c

/-- Model of `String.prototype.toLowerCase`. -/
def lowerStr (s : Str) : Str := s.map toLowerChar

/-- Model of `String.prototype.trimStart`. -/
def ltrim (s : Str) : Str := s.dropWhile isJsWS

/-- Model of `String.prototype.trimEnd`. -/
def rtrim (s : Str) : Str := (s.reverse.dropWhile isJsWS).reverse

/-- Model of `String.prototype.trim`. -/
def jsTrim (s : Str) : Str := ltrim (rtrim s)

/-- A string made purely of whitespace (what seam trimming may discard). -/
def wsOnly (s : Str) : Bool := s.all isJsWS

/-- The slice `s[i..j)` of a string, for indices `i ≤ j` already known to be
in order (used for block contents, where the parser guarantees order). -/
def seg (s : Str) (i j : Nat) : Str := (s.drop i).take (j - i)

/-- Model of `String.prototype.substring(a, b)`: each index is clamped to
the string length and the two are swapped when given in decreasing order. -/
def jsSubstring (s : Str) (a b : Nat) : Str :=
  let a' := min a s.length
  let b' := min b s.length
  seg s (min a' b') (max a' b')

/-- First index at which `pat` occurs in the given string, scanning left to
right (helper for the `indexOf` model). -/
def findFromAux (pat : Str) : Str → Option Nat
  | [] => if pat.isPrefixOf ([] : Str) then some 0 else none
  | c :: t => if pat.isPrefixOf (c :: t) then some 0 else (findFromAux pat t).map Nat.succ

/-- First index `≥ start` at which `pat` occurs in `hay` (the scanning part
of `String.prototype.indexOf(pat, start)`). -/
def findFrom (pat hay : Str) (start : Nat) : Option Nat :=
  (findFromAux pat (hay.drop start)).map (start + ·)

/-- Model of `String.prototype.indexOf` for the nonempty search strings the
source uses: the index of the first occurrence, or the sentinel `-1`. -/
def jsIndexOf (pat hay : Str) : Int :=
  match findFrom pat hay 0 with
  | some i => (i : Int)
  | none => -1

/-- Model of `String.prototype.includes` (for nonempty arguments). -/
def hasSubstr (pat hay : Str) : Bool := (findFromAux pat hay).isSome

/-- `pat` occurs in `hay` starting at index `i`. -/
def occursAt (pat hay : Str) (i : Nat) : Bool := pat.isPrefixOf (hay.drop i)

/-- Number of occurrences of a character in a string (the source counts
braces with `(s.match(/\{/g) || []).length`). -/
def countCh (c : Char) (s : Str) : Nat := s.count c

/-- The fixed start marker `MANUAL_START` of `syncFromCodebase.ts`. -/
def MANUAL_START : Str := ("/* <MANUAL_ZONE> */").data

/-- The fixed end marker `MANUAL_END` of `syncFromCodebase.ts`. -/
def MANUAL_END : Str := ("/* </MANUAL_ZONE> */").data

/-- Embedding of `extractManualZone` (`syncFromCodebase.ts`):

    const startIndex = content.indexOf(MANUAL_START);
    const endIndex = content.indexOf(MANUAL_END);
    if (startIndex !== -1 && endIndex !== -1 && endIndex > startIndex)
      return content.substring(startIndex + MANUAL_START.length, endIndex).trim();
    return null;
-/
def extractManualZone (content : Str) : Option Str :=
  match findFrom MANUAL_START content 0, findFrom MANUAL_END content 0 with
  | some startIndex, some endIndex =>
    if startIndex < endIndex then
      some (jsTrim (jsSubstring content (startIndex + MANUAL_START.length) endIndex))
    else none
  | _, _ => none

/-- A line at which the guard's re-injection stops scanning: the source
looks for the first line `l` with
`!l.startsWith("//") && !l.startsWith("import") && l.trim() !== ""`. -/
def isSubstantiveLine (l : Str) : Bool :=
  !(("//").data.isPrefixOf l) && !(("import").data.isPrefixOf l) && !(jsTrim l).isEmpty

/-- The zone block the guard splices back in:
`"\n" + MANUAL_START + "\n" + content + "\n" + MANUAL_END + "\n"`. -/
def manualBlock (zoneContent : Str) : Str :=
  [nlChar] ++ MANUAL_START ++ [nlChar] ++ zoneContent ++ [nlChar] ++ MANUAL_END ++ [nlChar]

/-- Model of `Array.prototype.findIndex`, without the `-1` sentinel (the
caller substitutes the array length for a missing index). -/
def findIndexAux (p : Str → Bool) : List Str → Option Nat
  | [] => none
  | l :: rest => if p l then some 0 else (findIndexAux p rest).map Nat.succ

/-- The splice step of the guard (`syncFromCodebase.ts`):

    const lines = testScript.split("\n");
    let injectIndex = lines.findIndex(l => !l.startsWith("//") && !l.startsWith("import") && l.trim() !== "");
    if (injectIndex === -1) injectIndex = lines.length;
    lines.splice(injectIndex, 0, manualBlock);
    testScript = lines.join("\n");
-/
def injectManualZone (testScript zoneContent : Str) : Str :=
  let lines := testScript.splitOn nlChar
  let injectIndex := (findIndexAux isSubstantiveLine lines).getD lines.length
  [nlChar].intercalate (lines.take injectIndex ++ [manualBlock zoneContent] ++ lines.drop injectIndex)

/-- The guard around the splice (`syncFromCodebase.ts`):
`if (manualZoneContent && !testScript.includes(MANUAL_START)) { ... }`.
An extracted-but-empty zone content is the JavaScript empty string, which
is falsy, so it is treated like a missing zone. -/
def ensureManualZone (testScript : Str) (manualZoneContent : Option Str) : Str :=
  match manualZoneContent with
  | none => testScript
  | some zoneContent =>
    if zoneContent.isEmpty then testScript
    else if hasSubstr MANUAL_START testScript then testScript
    else injectManualZone testScript zoneContent

/-- Embedding of the `TestBlock` interface. -/
structure TestBlock where
  content : Str
  startIndex : Nat
  endIndex : Nat
  featureName : Option Str
  testName : Option Str
deriving DecidableEq, Repr

/-- Embedding of the `ParsedTestFile` interface. -/
structure ParsedTestFile where
  header : Str
  testBlocks : List TestBlock
  footer : Str
deriving DecidableEq, Repr

/-- Embedding of `extractFeatureName` (`testFileParser.ts`): keyword lookup
on the lower-cased title, then the anchored regex `/^(\w+)\s+/` (a leading
word-character run that must be followed by whitespace), else undefined.
A missing or empty title is falsy in `if (!title)`, hence undefined. -/
def extractFeatureName (title : Option Str) : Option Str :=
  match title with
  | none => none
  | some t =>
    if t.isEmpty then none
    else
      let lowerTitle := lowerStr t
      if hasSubstr ("order").data lowerTitle then some ("order").data
      else if hasSubstr ("user").data lowerTitle then some ("user").data
      else if hasSubstr ("auth").data lowerTitle || hasSubstr ("login").data lowerTitle ||
              hasSubstr ("logout").data lowerTitle then some ("auth").data
      else if hasSubstr ("payment").data lowerTitle then some ("payment").data
      else
        let run := t.takeWhile isWordChar
        if !run.isEmpty && isJsWS ((t.drop run.length).headD (Char.ofNat 0)) then
          some (lowerStr run)
        else none

/-- One attempt of the unanchored regex `/(\w+)\s+method/i` at the start of
the given suffix: a nonempty word-character run, then nonempty whitespace,
then the six letters of `method` case-insensitively.  The run and the
whitespace are maximal because `\w`, `\s` and the letter `m` are pairwise
disjoint character classes, so regex backtracking cannot shorten them. -/
def tryMethodAt (s : Str) : Option Str :=
  let run := s.takeWhile isWordChar
  if run.isEmpty then none
  else
    let afterRun := s.drop run.length
    let ws := afterRun.takeWhile isJsWS
    if ws.isEmpty then none
    else if lowerStr ((afterRun.drop ws.length).take 6) = ("method").data then some run
    else none

/-- Left-to-right scan of `/(\w+)\s+method/i`, returning the first capture. -/
def methodMatchAux : Str → Option Str
  | [] => none
  | c :: t =>
    match tryMethodAt (c :: t) with
    | some run => some run
    | none => methodMatchAux t

/-- Embedding of `extractTestName` (`testFileParser.ts`): the identifier
before the word `method` if present, else the leading word-character run of
the title (`/^(\w+)/`), else undefined. -/
def extractTestName (title : Option Str) : Option Str :=
  match title with
  | none => none
  | some t =>
    if t.isEmpty then none
    else
      match methodMatchAux t with
      | some run => some (lowerStr run)
      | none =>
        let run := t.takeWhile isWordChar
        if run.isEmpty then none else some (lowerStr run)

/-- Quote characters of the title regex character class. -/
def isQuoteChar (c : Char) : Bool := c = sqChar || c = dqChar || c = btChar

/-- One attempt of the title regex
`/test\.describe\s*\(\s*[quote]([^quote]+)[quote]/` at the start of the
given suffix.  The `\s*` runs are maximal because a quote or `(` is not
whitespace; the captured run is maximal because its class is the complement
of the closing class, so the only flexibility regex backtracking would have
is gone and the match is deterministic. -/
def tryTitleAt (s : Str) : Option Str :=
  if ("test.describe").data.isPrefixOf s then
    let afterName := (s.drop 13).dropWhile isJsWS
    match afterName with
    | c :: afterParen =>
      if c = Char.ofNat 40 then
        match afterParen.dropWhile isJsWS with
        | q :: afterQuote =>
          if isQuoteChar q then
            let run := afterQuote.takeWhile (fun d => !isQuoteChar d)
            if run.isEmpty then none
            else if (afterQuote.drop run.length).isEmpty then none
            else some run
          else none
        | [] => none
      else none
    | [] => none
  else none

/-- Left-to-right scan for the first title-regex match (the semantics of
`blockContent.match(...)` without the global flag). -/
def titleMatchAux : Str → Option Str
  | [] => none
  | c :: t =>
    match tryTitleAt (c :: t) with
    | some run => some run
    | none => titleMatchAux t

/-- Phase one of `findMatchingClosingBrace`: scan forward tracking
parenthesis depth; once a `)` returns the depth to zero after a `(` was
seen, skip whitespace and demand `{`.  The `skipping` flag models the inner
whitespace loop of the source: in that mode a whitespace character is
consumed, a brace ends the phase successfully, and any other character is
consumed by the `i++` of the outer loop before normal scanning resumes.
`i` is the absolute index of the head of `rest` in the whole text; the
returned index is the absolute position just after the opening brace. -/
def phase1Aux : Str → Nat → Int → Bool → Bool → Option Nat
  | [], _, _, _, _ => none
  | c :: rest, i, parenDepth, foundParen, skipping =>
    if skipping then
      if isJsWS c then phase1Aux rest (i + 1) parenDepth foundParen true
      else if c = lbrace then some (i + 1)
      else phase1Aux rest (i + 1) parenDepth foundParen false
    else if c = Char.ofNat 40 then phase1Aux rest (i + 1) (parenDepth + 1) true false
    else if c = Char.ofNat 41 then
      if parenDepth - 1 = 0 && foundParen then
        phase1Aux rest (i + 1) (parenDepth - 1) foundParen true
      else phase1Aux rest (i + 1) (parenDepth - 1) foundParen false
    else phase1Aux rest (i + 1) parenDepth foundParen false

/-- Phase two of `findMatchingClosingBrace`: track brace depth from the
character after the opening brace; when depth returns to zero return the
index one past the closing brace, else the sentinel `-1`. -/
def phase2Aux : Str → Nat → Int → Int
  | [], _, _ => -1
  | c :: rest, i, braceDepth =>
    if c = lbrace then phase2Aux rest (i + 1) (braceDepth + 1)
    else if c = rbrace then
      if braceDepth - 1 = 0 then ((i + 1 : Nat) : Int)
      else phase2Aux rest (i + 1) (braceDepth - 1)
    else phase2Aux rest (i + 1) braceDepth

/-- Embedding of `findMatchingClosingBrace` (`testFileParser.ts`). -/
def findMatchingClosingBrace (content : Str) (startIndex : Nat) : Int :=
  match phase1Aux (content.drop startIndex) startIndex 0 false false with
  | some bodyStart => phase2Aux (content.drop bodyStart) bodyStart 1
  | none => -1

/-- The group-opening token searched for by the partitioner. -/
def describeToken : Str := ("test.describe(").data

/-- Builds the `TestBlock` record pushed by `parseTestFile` for the range
`[blockStart, blockEnd)`. -/
def mkTestBlock (content : Str) (blockStart blockEnd : Nat) : TestBlock :=
  let blockContent := seg content blockStart blockEnd
  let blockTitle := titleMatchAux blockContent
  { content := blockContent
    startIndex := blockStart
    endIndex := blockEnd
    featureName := extractFeatureName blockTitle
    testName := extractTestName blockTitle }

/-- The scanning loop of `parseTestFile`, with the cursor made explicit:
find the next `test.describe(`; emit a block when it is top level (equal
numbers of `{` and `}` before it, i.e. the source's `braceDepth === 0`) and
the scanner finds its end, else advance one character past the occurrence.
The loop advances the cursor by at least one position per iteration and the
cursor never exceeds `content.length`, so `content.length + 1` rounds of
fuel are enough for the fuel branch never to be taken. -/
def parseLoopF (content : Str) : Nat → Nat → List TestBlock
  | 0, _ => []
  | fuel + 1, i =>
    match findFrom describeToken content i with
    | none => []
    | some describeMatch =>
      if countCh lbrace (content.take describeMatch) = countCh rbrace (content.take describeMatch) then
        let blockEnd := findMatchingClosingBrace content describeMatch
        if (describeMatch : Int) < blockEnd then
          mkTestBlock content describeMatch blockEnd.toNat ::
            parseLoopF content fuel blockEnd.toNat
        else parseLoopF content fuel (describeMatch + 1)
      else parseLoopF content fuel (describeMatch + 1)

/-- Embedding of `parseTestFile` (`testFileParser.ts`).  `headerEnd` is set
exactly when the first block is pushed (to its start) and `footerStart` is
the end of the last pushed block, so the final `header`/`footer` are the
trimmed text before the first block and after the last one; with no blocks
both are empty, matching the `length > 0` guards of the source. -/
def parseTestFile (content : Str) : ParsedTestFile :=
  let testBlocks := parseLoopF content (content.length + 1) 0
  let header :=
    match testBlocks.head? with
    | some b => jsTrim (content.take b.startIndex)
    | none => []
  let footer :=
    match testBlocks.getLast? with
    | some b => jsTrim (content.drop b.endIndex)
    | none => []
  { header := header, testBlocks := testBlocks, footer := footer }

/-- Rule 1 of the matcher: exact match on both labels. -/
def isExactMatch (featureLower testNameLower : Str) (b : TestBlock) : Bool :=
  b.featureName == some featureLower && b.testName == some testNameLower

/-- Rule 2 of the matcher: match on the test label alone. -/
def isTestNameMatch (testNameLower : Str) (b : TestBlock) : Bool :=
  b.testName == some testNameLower

/-- Rule 3 of the matcher: match on the feature label alone. -/
def isFeatureMatch (featureLower : Str) (b : TestBlock) : Bool :=
  b.featureName == some featureLower

/-- Rule 4 of the matcher, the content heuristic of the source:

    contentLower.includes(`${testNameLower}(`) ||
    contentLower.includes(`${testNameLower}.`) ||
    contentLower.includes(`'${testNameLower}'`) ||
    contentLower.includes(`"${testNameLower}"`)
-/
def isContentMatch (testNameLower : Str) (b : TestBlock) : Bool :=
  let contentLower := lowerStr b.content
  hasSubstr (testNameLower ++ [Char.ofNat 40]) contentLower ||
  hasSubstr (testNameLower ++ [Char.ofNat 46]) contentLower ||
  hasSubstr ([sqChar] ++ testNameLower ++ [sqChar]) contentLower ||
  hasSubstr ([dqChar] ++ testNameLower ++ [dqChar]) contentLower

/-- The first `for (const block of parsed.testBlocks)` loop of the matcher
(return on exact match). -/
def findExactLoop (featureLower testNameLower : Str) : List TestBlock → Option TestBlock
  | [] => none
  | b :: rest =>
    if isExactMatch featureLower testNameLower b then some b
    else findExactLoop featureLower testNameLower rest

/-- The second matcher loop (return on test-label match). -/
def findTestNameLoop (testNameLower : Str) : List TestBlock → Option TestBlock
  | [] => none
  | b :: rest =>
    if isTestNameMatch testNameLower b then some b else findTestNameLoop testNameLower rest

/-- The third matcher loop (return on feature-label match). -/
def findFeatureLoop (featureLower : Str) : List TestBlock → Option TestBlock
  | [] => none
  | b :: rest =>
    if isFeatureMatch featureLower b then some b else findFeatureLoop featureLower rest

/-- The fourth matcher loop (return on the content heuristic). -/
def findContentLoop (testNameLower : Str) : List TestBlock → Option TestBlock
  | [] => none
  | b :: rest =>
    if isContentMatch testNameLower b then some b else findContentLoop testNameLower rest

/-- Embedding of `findMatchingTestBlock` (`testFileParser.ts`): the four
loops in order, then the single-block fallback
`parsed.testBlocks.length === 1 ? parsed.testBlocks[0] : undefined`. -/
def findMatchingTestBlock (parsed : ParsedTestFile) (feature testName : Str) : Option TestBlock :=
  let featureLower := lowerStr feature
  let testNameLower := lowerStr testName
  match findExactLoop featureLower testNameLower parsed.testBlocks with
  | some b => some b
  | none =>
    match findTestNameLoop testNameLower parsed.testBlocks with
    | some b => some b
    | none =>
      match findFeatureLoop featureLower parsed.testBlocks with
      | some b => some b
      | none =>
        match findContentLoop testNameLower parsed.testBlocks with
        | some b => some b
        | none =>
          if parsed.testBlocks.length = 1 then parsed.testBlocks.head? else none

/-- Embedding of `replaceTestBlock` (`testFileParser.ts`):
`before.trimEnd() + "\n\n" + newBlockContent + "\n\n" + after.trimStart()`. -/
def replaceTestBlock (originalContent : Str) (targetBlock : TestBlock)
    (newBlockContent : Str) : Str :=
  let before := originalContent.take targetBlock.startIndex
  let after := originalContent.drop targetBlock.endIndex
  rtrim before ++ [nlChar, nlChar] ++ newBlockContent ++ [nlChar, nlChar] ++ ltrim after

/-- The spec's Scenario C input
`test.describe('X', () => { test.describe('Y', () => {}); });`. -/
def scenarioC : Str :=
  ("test.describe(\x27X\x27, () => \x7b test.describe(\x27Y\x27, () => \x7b\x7d); \x7d);").data

/-- Candidate blocks for the matcher cascade check: this one matches the
target only through its feature label. -/
def cascadeFeatureBlock : TestBlock :=
  { content := ("A").data, startIndex := 0, endIndex := 1
    featureName := some ("order").data, testName := some ("zz").data }

/-- Candidate block matching the target exactly on both labels. -/
def cascadeExactBlock : TestBlock :=
  { content := ("B").data, startIndex := 2, endIndex := 3
    featureName := some ("order").data, testName := some ("update").data }

/-- A parsed file whose first block matches only by feature and whose
second block matches exactly. -/
def cascadeParsed : ParsedTestFile :=
  { header := [], testBlocks := [cascadeFeatureBlock, cascadeExactBlock], footer := [] }

/-- A one-block file whose only block has no labels and an unrelated body,
so that no matcher rule fires. -/
def garbledBlock : TestBlock :=
  { content := ("garbled stuff").data, startIndex := 0, endIndex := 13
    featureName := none, testName := none }

/-- The one-block parsed file around `garbledBlock`. -/
def garbledParsed : ParsedTestFile :=
  { header := [], testBlocks := [garbledBlock], footer := [] }

/-- Modelled from the claim's wording of rule 4 (and the spec's section
4.3): the block's raw content contains the test name immediately followed
by a parenthesis, or immediately PRECEDED by a dot, or wrapped in matching
quotes, compared case-insensitively.  This differs from the source, whose
second shape is the test name immediately FOLLOWED by a dot. -/
def claimContentShape (testNameLower : Str) (b : TestBlock) : Bool :=
  let contentLower := lowerStr b.content
  hasSubstr (testNameLower ++ [Char.ofNat 40]) contentLower ||
  hasSubstr ([Char.ofNat 46] ++ testNameLower) contentLower ||
  hasSubstr ([sqChar] ++ testNameLower ++ [sqChar]) contentLower ||
  hasSubstr ([dqChar] ++ testNameLower ++ [dqChar]) contentLower

/-- Label-free block whose body references the target only as `zz.foo`
(test name preceded by a dot): selected by the claim's rule 4, not by the
source's. -/
def dotBeforeBlock : TestBlock :=
  { content := ("zz.foo").data, startIndex := 0, endIndex := 6
    featureName := none, testName := none }

/-- Label-free block whose body references the target only as `foo.zz`
(test name followed by a dot): selected by the source's rule 4, not by the
claim's. -/
def dotAfterBlock : TestBlock :=
  { content := ("foo.zz").data, startIndex := 7, endIndex := 13
    featureName := none, testName := none }

/-- Two-block parsed file separating the claim's rule 4 from the code's. -/
def dotParsed : ParsedTestFile :=
  { header := [], testBlocks := [dotBeforeBlock, dotAfterBlock], footer := [] }

/-- `i` is the index of the first occurrence of `pat` in `hay`. -/
def IsFirstOcc (pat hay : Str) (i : Nat) : Prop :=
  occursAt pat hay i = true ∧ ∀ k < i, occursAt pat hay k = false

instance (pat hay : Str) (i : Nat) : Decidable (IsFirstOcc pat hay i) := by
  unfold IsFirstOcc; infer_instance

/-- Modelled from the claim's wording: the trimmed text strictly between
the first start-marker occurrence and the first end-marker occurrence when
the latter begins after the former, with no argument swapping; none in
every other configuration. -/
def claimExtractManualZone (content : Str) : Option Str :=
  match findFrom MANUAL_START content 0, findFrom MANUAL_END content 0 with
  | some s, some e =>
    if s < e then some (jsTrim (seg content (s + MANUAL_START.length) e)) else none
  | _, _ => none

/-- Input whose first end-marker occurrence begins inside the start marker
(the end marker starts at index 18, the start marker ends at 19). -/
def overlapMarkers : Str := ("/* <MANUAL_ZONE> */* </MANUAL_ZONE> */").data

/-- A file with a well-formed manual zone holding the payload `hi`. -/
def zoneSample : Str := ("/* <MANUAL_ZONE> */hi/* </MANUAL_ZONE> */").data

/-- The spec's Scenario D input `test.describe('X', () => {` (unterminated). -/
def unterminatedInput : Str := ("test.describe(\x27X\x27, () => \x7b").data

/-- A minimal input on which the scanner does find a block: the body brace
follows the closed argument list, so `parseTestFile` emits the block
`[0, 18)`. -/
def blockSample : Str := ("test.describe()\x7ba\x7d").data

/-- A file with two scanner-recognizable blocks separated by the
non-whitespace text `X`. -/
def twoBlocksLost : Str := ("test.describe()\x7ba\x7dXtest.describe()\x7bb\x7d").data

/-- A file with two scanner-recognizable blocks separated by whitespace
only, with header and footer text. -/
def twoBlocksWS : Str :=
  ("hdr; test.describe()\x7ba\x7d test.describe()\x7bb\x7d ftr").data

/-- The blocks of a parse are listed in file order: each block ends no
later than the next one starts. -/
def blocksOrdered : List TestBlock → Prop
  | [] => True
  | [_] => True
  | a :: b :: rest => a.endIndex ≤ b.startIndex ∧ blocksOrdered (b :: rest)

/-- Every block of the list is a well-formed slice of `content`. -/
def blocksWF (content : Str) (bs : List TestBlock) : Prop :=
  ∀ b ∈ bs, b.startIndex < b.endIndex ∧ b.endIndex ≤ content.length ∧
    b.content = seg content b.startIndex b.endIndex

/-- The text strictly between each pair of consecutive blocks is
whitespace only. -/
def gapsWSOnly (content : Str) : List TestBlock → Bool
  | [] => true
  | [_] => true
  | a :: b :: rest =>
    wsOnly (seg content a.endIndex b.startIndex) && gapsWSOnly content (b :: rest)

/-- The last block of a nonempty block list given as head and tail. -/
def lastBlockD (b : TestBlock) : List TestBlock → TestBlock
  | [] => b
  | c :: t => lastBlockD c t

/-- The target string is the given pieces in order, with only whitespace
interleaved before, between and after them — the "reconstructs the
original up to whitespace at the seams" relation. -/
def InterleavesWS : List Str → Str → Prop
  | [], s => wsOnly s = true
  | x :: xs, s => ∃ w t, wsOnly w = true ∧ s = w ++ x ++ t ∧ InterleavesWS xs t

/-- The zone the guard reconstructs: start marker, newline, payload,
newline, end marker (the middle of `manualBlock`). -/
def zoneText (zoneContent : Str) : Str :=
  MANUAL_START ++ nlChar :: (zoneContent ++ nlChar :: MANUAL_END)

/-- A regenerated script with no manual-zone marker and a substantive
first line. -/
def tsPlain : Str := ("const x = 1;").data

/-- A file whose manual zone is present but empty (adjacent markers). -/
def emptyZoneOrig : Str := ("/* <MANUAL_ZONE> *//* </MANUAL_ZONE> */").data

/-! ## Lemmas and claim theorems -/

theorem ltrim_decomp (s : Str) : ∃ w, wsOnly w = true ∧ s = w ++ ltrim s := by
  refine ⟨s.takeWhile isJsWS, ?_, ?_⟩
  · exact List.all_eq_true.mpr fun c hc => List.mem_takeWhile_imp hc
  · exact (List.takeWhile_append_dropWhile isJsWS s).symm

theorem rtrim_decomp (s : Str) : ∃ w, wsOnly w = true ∧ s = rtrim s ++ w := by
  refine ⟨(s.reverse.takeWhile isJsWS).reverse, ?_, ?_⟩
  · exact List.all_eq_true.mpr fun c hc =>
      List.mem_takeWhile_imp (List.mem_reverse.mp hc)
  · have h := congrArg List.reverse (List.takeWhile_append_dropWhile isJsWS s.reverse)
    rw [List.reverse_append, List.reverse_reverse] at h
    exact h.symm

theorem jsTrim_decomp (s : Str) :
    ∃ w₁ w₂, wsOnly w₁ = true ∧ wsOnly w₂ = true ∧ s = w₁ ++ jsTrim s ++ w₂ := by
  obtain ⟨w₂, hw₂, hs⟩ := rtrim_decomp s
  obtain ⟨w₁, hw₁, hr⟩ := ltrim_decomp (rtrim s)
  refine ⟨w₁, w₂, hw₁, hw₂, ?_⟩
  conv_lhs => rw [hs, hr]
  simp [jsTrim, List.append_assoc]

/-- Claim C8: `replaceTestBlock` returns the right-trimmed text before the
target range, a blank-line seam, exactly the new content, a blank-line
seam, and the left-trimmed text after the range; the trimmed seam material
is whitespace only, so every non-whitespace character of the surrounding
text is carried over unchanged. -/
theorem C8_replace_block_frame (originalContent : Str) (targetBlock : TestBlock)
    (newBlockContent : Str) :
    (replaceTestBlock originalContent targetBlock newBlockContent =
      rtrim (originalContent.take targetBlock.startIndex) ++ [nlChar, nlChar] ++
      newBlockContent ++ [nlChar, nlChar] ++
      ltrim (originalContent.drop targetBlock.endIndex)) ∧
    ∃ w₁ w₂, wsOnly w₁ = true ∧ wsOnly w₂ = true ∧
      originalContent.take targetBlock.startIndex =
        rtrim (originalContent.take targetBlock.startIndex) ++ w₁ ∧
      originalContent.drop targetBlock.endIndex =
        w₂ ++ ltrim (originalContent.drop targetBlock.endIndex) := by
  refine ⟨rfl, ?_⟩
  obtain ⟨w₁, hw₁, h₁⟩ := rtrim_decomp (originalContent.take targetBlock.startIndex)
  obtain ⟨w₂, hw₂, h₂⟩ := ltrim_decomp (originalContent.drop targetBlock.endIndex)
  exact ⟨w₁, w₂, hw₁, hw₂, h₁, h₂⟩

/-- Claim C10, counterexample: the single-word title `Checkout` contains
none of the domain keywords, yet `extractFeatureName` leaves the label
unset (its regex `/^(\w+)\s+/` demands trailing whitespace after the first
word), contradicting both "equals the first whitespace-delimited word ...
including when the title consists of a single word" and "featureLabel is
unset only when the title is absent". -/
theorem C10_counterexample :
    extractFeatureName (some ("Checkout").data) = none ∧
    hasSubstr ("order").data (lowerStr ("Checkout").data) = false ∧
    hasSubstr ("user").data (lowerStr ("Checkout").data) = false ∧
    hasSubstr ("auth").data (lowerStr ("Checkout").data) = false ∧
    hasSubstr ("login").data (lowerStr ("Checkout").data) = false ∧
    hasSubstr ("logout").data (lowerStr ("Checkout").data) = false ∧
    hasSubstr ("payment").data (lowerStr ("Checkout").data) = false := by
  decide

/-- Claim C10, amended: for a title containing no domain keyword, the
derived feature label is the leading run of word characters, lowercased,
provided that run is nonempty and is immediately followed by a whitespace
character; otherwise (in particular for single-word titles with nothing
after the word) the label is unset. -/
theorem C10_feature_label_amended (t : Str)
    (h₁ : hasSubstr ("order").data (lowerStr t) = false)
    (h₂ : hasSubstr ("user").data (lowerStr t) = false)
    (h₃ : hasSubstr ("auth").data (lowerStr t) = false)
    (h₄ : hasSubstr ("login").data (lowerStr t) = false)
    (h₅ : hasSubstr ("logout").data (lowerStr t) = false)
    (h₆ : hasSubstr ("payment").data (lowerStr t) = false) :
    extractFeatureName (some t) =
      if !(t.takeWhile isWordChar).isEmpty &&
          isJsWS ((t.drop (t.takeWhile isWordChar).length).headD (Char.ofNat 0)) then
        some (lowerStr (t.takeWhile isWordChar))
      else none := by
  rcases ht : t with _ | ⟨c, t'⟩
  · rfl
  · rw [← ht]
    have hne : t.isEmpty = false := by rw [ht]; rfl
    simp only [extractFeatureName, hne, h₁, h₂, h₃, h₄, h₅, h₆]
    simp

/-- Witness for C10's amended theorem at the two-word keyword-free title
`Checkout Flow`. -/
theorem C10_witness :
    extractFeatureName (some ("Checkout Flow").data) = some (("checkout").data) :=
  (C10_feature_label_amended ("Checkout Flow").data (by decide) (by decide) (by decide)
    (by decide) (by decide) (by decide)).trans (by decide)

/-- Claim C5: evaluation of the code at the claim's own input.  The claim
(and the parser's documentation) promise exactly one top-level block
spanning the whole outer construct, but `parseTestFile` emits no block at
all: `findMatchingClosingBrace` demands an opening brace after the
`test.describe(...)` argument list closes, while the block body's brace
sits inside the parentheses, so the scanner reports `NOT_FOUND` and both
occurrences are skipped. -/
theorem C5_code_behavior :
    (parseTestFile scenarioC).testBlocks.length = 0 ∧
    parseTestFile scenarioC = { header := [], testBlocks := [], footer := [] } ∧
    findMatchingClosingBrace scenarioC 0 = -1 := by
  decide

theorem findExactLoop_eq_find? (fl tl : Str) (l : List TestBlock) :
    findExactLoop fl tl l = l.find? (isExactMatch fl tl) := by
  induction l with
  | nil => rfl
  | cons b rest ih => cases h : isExactMatch fl tl b <;>
      simp [findExactLoop, List.find?_cons, h, ih]

theorem findTestNameLoop_eq_find? (tl : Str) (l : List TestBlock) :
    findTestNameLoop tl l = l.find? (isTestNameMatch tl) := by
  induction l with
  | nil => rfl
  | cons b rest ih => cases h : isTestNameMatch tl b <;>
      simp [findTestNameLoop, List.find?_cons, h, ih]

theorem findFeatureLoop_eq_find? (fl : Str) (l : List TestBlock) :
    findFeatureLoop fl l = l.find? (isFeatureMatch fl) := by
  induction l with
  | nil => rfl
  | cons b rest ih => cases h : isFeatureMatch fl b <;>
      simp [findFeatureLoop, List.find?_cons, h, ih]

theorem findContentLoop_eq_find? (tl : Str) (l : List TestBlock) :
    findContentLoop tl l = l.find? (isContentMatch tl) := by
  induction l with
  | nil => rfl
  | cons b rest ih => cases h : isContentMatch tl b <;>
      simp [findContentLoop, List.find?_cons, h, ih]

/-- Claim C6: the matcher is a strict priority cascade.  The general part
identifies `findMatchingTestBlock` with first-match searches (file order)
over the four rules in their priority order, on labels lower-cased from the
targets, followed by the single-block fallback; the concrete part shows the
exact-match block beating an earlier feature-only block for the
mixed-case target `("Order", "Update")`. -/
theorem C6_matcher_priority_cascade :
    (∀ (parsed : ParsedTestFile) (feature testName : Str),
      findMatchingTestBlock parsed feature testName =
        ((parsed.testBlocks.find? (isExactMatch (lowerStr feature) (lowerStr testName))).orElse
          fun _ => (parsed.testBlocks.find? (isTestNameMatch (lowerStr testName))).orElse
          fun _ => (parsed.testBlocks.find? (isFeatureMatch (lowerStr feature))).orElse
          fun _ => (parsed.testBlocks.find? (isContentMatch (lowerStr testName))).orElse
          fun _ => if parsed.testBlocks.length = 1 then parsed.testBlocks.head? else none)) ∧
    findMatchingTestBlock cascadeParsed ("Order").data ("Update").data = some cascadeExactBlock := by
  constructor
  · intro parsed feature testName
    rw [findMatchingTestBlock]
    rw [findExactLoop_eq_find?, findTestNameLoop_eq_find?, findFeatureLoop_eq_find?,
      findContentLoop_eq_find?]
    rcases parsed.testBlocks.find? (isExactMatch (lowerStr feature) (lowerStr testName)) with _ | b₁
    · rcases parsed.testBlocks.find? (isTestNameMatch (lowerStr testName)) with _ | b₂
      · rcases parsed.testBlocks.find? (isFeatureMatch (lowerStr feature)) with _ | b₃
        · rcases parsed.testBlocks.find? (isContentMatch (lowerStr testName)) with _ | b₄ <;>
            rfl
        · rfl
      · rfl
    · rfl
  · decide

/-- Claim C1: when none of the four matching rules selects any block, the
matcher returns the single block of a one-block file regardless of its
labels, and returns nothing when the file has zero or at least two
blocks. -/
theorem C1_single_block_fallback (parsed : ParsedTestFile) (feature testName : Str)
    (hnone : ∀ b ∈ parsed.testBlocks,
      isExactMatch (lowerStr feature) (lowerStr testName) b = false ∧
      isTestNameMatch (lowerStr testName) b = false ∧
      isFeatureMatch (lowerStr feature) b = false ∧
      isContentMatch (lowerStr testName) b = false) :
    (parsed.testBlocks.length = 1 →
      findMatchingTestBlock parsed feature testName = parsed.testBlocks.head?) ∧
    (parsed.testBlocks.length ≠ 1 →
      findMatchingTestBlock parsed feature testName = none) := by
  have h₁ : parsed.testBlocks.find? (isExactMatch (lowerStr feature) (lowerStr testName)) = none :=
    List.find?_eq_none.mpr fun b hb => by simp [(hnone b hb).1]
  have h₂ : parsed.testBlocks.find? (isTestNameMatch (lowerStr testName)) = none :=
    List.find?_eq_none.mpr fun b hb => by simp [(hnone b hb).2.1]
  have h₃ : parsed.testBlocks.find? (isFeatureMatch (lowerStr feature)) = none :=
    List.find?_eq_none.mpr fun b hb => by simp [(hnone b hb).2.2.1]
  have h₄ : parsed.testBlocks.find? (isContentMatch (lowerStr testName)) = none :=
    List.find?_eq_none.mpr fun b hb => by simp [(hnone b hb).2.2.2]
  rw [findMatchingTestBlock, findExactLoop_eq_find?, findTestNameLoop_eq_find?,
    findFeatureLoop_eq_find?, findContentLoop_eq_find?, h₁, h₂, h₃, h₄]
  constructor
  · intro hlen; simp [hlen]
  · intro hlen; simp [hlen]

/-- Witness for C1 at a one-block file with an unrelated, label-free
block: the fallback still returns that block. -/
theorem C1_witness :
    findMatchingTestBlock garbledParsed ("order").data ("update").data = some garbledBlock :=
  ((C1_single_block_fallback garbledParsed ("order").data ("update").data
    (by decide)).1 (by decide)).trans (by decide)

/-- Claim C7, counterexample: with target test name `foo` and no
label-based match anywhere, the first (and only) block satisfying the
claim's rule-4 shapes is `dotBeforeBlock` (it contains `.foo`), yet the
code returns `dotAfterBlock` (its rule 4 checks `foo.`, the name followed
by a dot, not preceded) — so rule 4 as claimed mispredicts both which
block is chosen and which blocks are eligible. -/
theorem C7_counterexample :
    (∀ b ∈ dotParsed.testBlocks,
      isExactMatch (lowerStr ("f").data) (lowerStr ("foo").data) b = false ∧
      isTestNameMatch (lowerStr ("foo").data) b = false ∧
      isFeatureMatch (lowerStr ("f").data) b = false) ∧
    claimContentShape (lowerStr ("foo").data) dotBeforeBlock = true ∧
    claimContentShape (lowerStr ("foo").data) dotAfterBlock = false ∧
    findMatchingTestBlock dotParsed ("f").data ("foo").data = some dotAfterBlock ∧
    dotAfterBlock ≠ dotBeforeBlock := by
  decide

/-- Claim C7, amended: when rules 1-3 yield no match, the matcher selects
the first block in file order whose raw content contains the test name
immediately followed by `(`, or immediately followed by `.`, or wrapped in
matching single or double quotes, compared case-insensitively
(`isContentMatch`); if no block satisfies any of these shapes, rule 4
selects nothing and the single-block fallback decides. -/
theorem C7_content_heuristic_amended (parsed : ParsedTestFile) (feature testName : Str)
    (hnone : ∀ b ∈ parsed.testBlocks,
      isExactMatch (lowerStr feature) (lowerStr testName) b = false ∧
      isTestNameMatch (lowerStr testName) b = false ∧
      isFeatureMatch (lowerStr feature) b = false) :
    findMatchingTestBlock parsed feature testName =
      (parsed.testBlocks.find? (isContentMatch (lowerStr testName))).orElse
        (fun _ => if parsed.testBlocks.length = 1 then parsed.testBlocks.head? else none) := by
  have h₁ : parsed.testBlocks.find? (isExactMatch (lowerStr feature) (lowerStr testName)) = none :=
    List.find?_eq_none.mpr fun b hb => by simp [(hnone b hb).1]
  have h₂ : parsed.testBlocks.find? (isTestNameMatch (lowerStr testName)) = none :=
    List.find?_eq_none.mpr fun b hb => by simp [(hnone b hb).2.1]
  have h₃ : parsed.testBlocks.find? (isFeatureMatch (lowerStr feature)) = none :=
    List.find?_eq_none.mpr fun b hb => by simp [(hnone b hb).2.2]
  rw [findMatchingTestBlock, findExactLoop_eq_find?, findTestNameLoop_eq_find?,
    findFeatureLoop_eq_find?, findContentLoop_eq_find?, h₁, h₂, h₃]
  rcases parsed.testBlocks.find? (isContentMatch (lowerStr testName)) with _ | b <;> rfl

/-- Witness for C7's amended theorem on the two-block file: the code's
rule 4 picks the block whose body contains `foo.`. -/
theorem C7_witness :
    findMatchingTestBlock dotParsed ("f").data ("foo").data = some dotAfterBlock :=
  (C7_content_heuristic_amended dotParsed ("f").data ("foo").data (by decide)).trans (by decide)

theorem occursAt_cons_succ (pat : Str) (c : Char) (t : Str) (k : Nat) :
    occursAt pat (c :: t) (k + 1) = occursAt pat t k := by
  simp [occursAt]

theorem occursAt_le_length (pat hay : Str) (i : Nat) (hp : pat ≠ [])
    (h : occursAt pat hay i = true) : i + pat.length ≤ hay.length := by
  have hpre : pat <+: hay.drop i := List.isPrefixOf_iff_prefix.mp h
  have hlen : pat.length ≤ (hay.drop i).length := hpre.length_le
  rw [List.length_drop] at hlen
  by_cases hi : i ≤ hay.length
  · omega
  · exfalso
    have hnil : hay.drop i = [] := List.drop_eq_nil_of_le (by omega)
    rw [hnil] at hpre
    exact hp (List.prefix_nil.mp hpre)

theorem findFromAux_some_iff (pat : Str) :
    ∀ (s : Str) (j : Nat), findFromAux pat s = some j ↔
      (occursAt pat s j = true ∧ ∀ k < j, occursAt pat s k = false) := by
  intro s
  induction s with
  | nil =>
    intro j
    cases h : pat.isPrefixOf ([] : Str) with
    | true =>
      constructor
      · intro hj
        simp only [findFromAux, h, if_true, Option.some.injEq] at hj
        obtain rfl : j = 0 := by omega
        exact ⟨by simpa [occursAt] using h, fun k hk => absurd hk (by omega)⟩
      · rintro ⟨h₁, h₂⟩
        rcases j with _ | j'
        · simp [findFromAux, h]
        · exact absurd (h₂ 0 (by omega)) (by simp [occursAt, h])
    | false =>
      constructor
      · intro hj; simp [findFromAux, h] at hj
      · rintro ⟨h₁, _⟩
        rw [show occursAt pat ([] : Str) j = pat.isPrefixOf ([] : Str) by simp [occursAt]] at h₁
        rw [h] at h₁; exact absurd h₁ (by simp)
  | cons c t ih =>
    intro j
    cases h : pat.isPrefixOf (c :: t) with
    | true =>
      rcases j with _ | j'
      · constructor
        · intro _
          exact ⟨by simpa [occursAt] using h, fun k hk => absurd hk (by omega)⟩
        · intro _
          simp [findFromAux, h]
      · constructor
        · intro hj; simp [findFromAux, h] at hj
        · rintro ⟨_, h₂⟩
          have := h₂ 0 (Nat.succ_pos j')
          rw [show occursAt pat (c :: t) 0 = pat.isPrefixOf (c :: t) by simp [occursAt]] at this
          rw [h] at this; exact absurd this (by simp)
    | false =>
      have heq : findFromAux pat (c :: t) = (findFromAux pat t).map Nat.succ := by
        simp [findFromAux, h]
      rw [heq]
      have hocc0 : occursAt pat (c :: t) 0 = false := by
        simpa [occursAt] using h
      rcases j with _ | j'
      · constructor
        · intro hj
          rcases Option.map_eq_some'.mp hj with ⟨j₀, _, hsucc⟩
          omega
        · rintro ⟨h₁, _⟩; rw [hocc0] at h₁; exact absurd h₁ (by simp)
      · constructor
        · intro hj
          rcases Option.map_eq_some'.mp hj with ⟨j₀, hj₀, hsucc⟩
          obtain rfl := Nat.succ_injective hsucc
          obtain ⟨o₁, o₂⟩ := (ih _).mp hj₀
          refine ⟨by simpa [occursAt_cons_succ] using o₁, ?_⟩
          intro k hk
          rcases k with _ | k'
          · exact hocc0
          · rw [occursAt_cons_succ]; exact o₂ k' (by omega)
        · rintro ⟨h₁, h₂⟩
          have o₁ : occursAt pat t j' = true := by simpa [occursAt_cons_succ] using h₁
          have o₂ : ∀ k < j', occursAt pat t k = false := by
            intro k hk
            have := h₂ (k + 1) (by omega)
            simpa [occursAt_cons_succ] using this
          rw [(ih j').mpr ⟨o₁, o₂⟩]
          rfl

theorem findFromAux_none_iff (pat : Str) :
    ∀ s : Str, findFromAux pat s = none ↔ ∀ k, occursAt pat s k = false := by
  intro s
  induction s with
  | nil =>
    cases h : pat.isPrefixOf ([] : Str) with
    | true =>
      simp only [findFromAux, h, if_true]
      constructor
      · intro hj; exact absurd hj (by simp)
      · intro hall; exact absurd (hall 0) (by simp [occursAt, h])
    | false =>
      simp only [findFromAux, h, if_false]
      exact ⟨fun _ k => by simp [occursAt, h], fun _ => rfl⟩
  | cons c t ih =>
    cases h : pat.isPrefixOf (c :: t) with
    | true =>
      simp only [findFromAux, h, if_true]
      constructor
      · intro hj; exact absurd hj (by simp)
      · intro hall
        have := hall 0
        rw [show occursAt pat (c :: t) 0 = pat.isPrefixOf (c :: t) by simp [occursAt]] at this
        rw [h] at this; exact absurd this (by simp)
    | false =>
      have heq : findFromAux pat (c :: t) = (findFromAux pat t).map Nat.succ := by
        simp [findFromAux, h]
      rw [heq]
      constructor
      · intro hj k
        have hnone : findFromAux pat t = none := by
          rcases hfa : findFromAux pat t with _ | j₀
          · rfl
          · rw [hfa] at hj; simp at hj
        rcases k with _ | k'
        · simpa [occursAt] using h
        · rw [occursAt_cons_succ]; exact (ih.mp hnone) k'
      · intro hall
        have : findFromAux pat t = none := ih.mpr fun k => by
          have := hall (k + 1)
          simpa [occursAt_cons_succ] using this
        rw [this]; rfl

theorem findFrom_zero (pat hay : Str) : findFrom pat hay 0 = findFromAux pat hay := by
  unfold findFrom
  rw [List.drop_zero]
  rcases h : findFromAux pat hay with _ | j <;> simp [h]

theorem hasSubstr_false_iff (pat hay : Str) :
    hasSubstr pat hay = false ↔ ∀ k, occursAt pat hay k = false := by
  unfold hasSubstr
  rcases h : findFromAux pat hay with _ | j
  · simpa using (findFromAux_none_iff pat hay).mp h
  · simp only [Option.isSome_some]
    constructor
    · intro hfalse; exact absurd hfalse (by simp)
    · intro hall
      have := ((findFromAux_some_iff pat hay j).mp h).1
      rw [hall j] at this
      exact absurd this (by simp)

theorem findFrom_zero_eq_some_iff (pat hay : Str) (j : Nat) :
    findFrom pat hay 0 = some j ↔ IsFirstOcc pat hay j := by
  rw [findFrom_zero]; exact findFromAux_some_iff pat hay j

theorem jsSubstring_eq_seg (s : Str) (a b : Nat) (hab : a ≤ b) (hb : b ≤ s.length) :
    jsSubstring s a b = seg s a b := by
  have ha : a ≤ s.length := le_trans hab hb
  simp [jsSubstring, Nat.min_eq_left ha, Nat.min_eq_left hb, Nat.min_eq_left hab,
    Nat.max_eq_right hab]

/-- Claim C3, counterexample: on `overlapMarkers` both markers exist and
the end marker comes strictly after the start marker (index 18 after index
0), so the claim demands the trimmed text strictly between them (which is
empty); the code instead hits JavaScript's `substring` argument swap,
`substring(19, 18) = substring(18, 19)`, and returns the one-character
partial extraction `/`. -/
theorem C3_counterexample :
    extractManualZone overlapMarkers = some (("/").data) ∧
    claimExtractManualZone overlapMarkers = some [] ∧
    extractManualZone overlapMarkers ≠ claimExtractManualZone overlapMarkers := by
  decide

/-- Claim C3, amended: the extraction returns the trimmed text strictly
between the first start-marker occurrence and the first end-marker
occurrence whenever both exist and the end marker begins at or after the
END of the start marker; it returns none when either marker is absent or
the first end-marker occurrence does not come strictly after the first
start-marker occurrence.  (When the first end-marker occurrence begins
strictly inside the start marker, the code returns a swapped substring
instead of the empty between-text; that configuration is carved out.) -/
theorem C3_extract_amended (content : Str) :
    (∀ s e, IsFirstOcc MANUAL_START content s → IsFirstOcc MANUAL_END content e →
      s + MANUAL_START.length ≤ e →
      extractManualZone content =
        some (jsTrim (seg content (s + MANUAL_START.length) e))) ∧
    ((∀ k, occursAt MANUAL_START content k = false) → extractManualZone content = none) ∧
    ((∀ k, occursAt MANUAL_END content k = false) → extractManualZone content = none) ∧
    (∀ s e, IsFirstOcc MANUAL_START content s → IsFirstOcc MANUAL_END content e →
      e ≤ s → extractManualZone content = none) := by
  refine ⟨?_, ?_, ?_, ?_⟩
  · intro s e hs he hle
    have hS : findFrom MANUAL_START content 0 = some s :=
      (findFrom_zero_eq_some_iff _ _ _).mpr hs
    have hE : findFrom MANUAL_END content 0 = some e :=
      (findFrom_zero_eq_some_iff _ _ _).mpr he
    have hlt : s < e := by
      have h19 : MANUAL_START.length = 19 := by decide
      omega
    have helen : e + MANUAL_END.length ≤ content.length :=
      occursAt_le_length _ _ _ (by decide) he.1
    have hee : e ≤ content.length := by omega
    simp only [extractManualZone, hS, hE]
    rw [if_pos hlt, jsSubstring_eq_seg content _ e hle hee]
  · intro hall
    have hS : findFrom MANUAL_START content 0 = none := by
      rw [findFrom_zero]; exact (findFromAux_none_iff _ _).mpr hall
    rw [extractManualZone, hS]
  · intro hall
    have hE : findFrom MANUAL_END content 0 = none := by
      rw [findFrom_zero]; exact (findFromAux_none_iff _ _).mpr hall
    rw [extractManualZone, hE]
    rcases findFrom MANUAL_START content 0 with _ | s <;> rfl
  · intro s e hs he hle
    have hS : findFrom MANUAL_START content 0 = some s :=
      (findFrom_zero_eq_some_iff _ _ _).mpr hs
    have hE : findFrom MANUAL_END content 0 = some e :=
      (findFrom_zero_eq_some_iff _ _ _).mpr he
    simp only [extractManualZone, hS, hE]
    rw [if_neg (show ¬ s < e by omega)]

/-- Witness for C3's amended theorem: first occurrences at 0 and 21 with
no overlap, extraction yields the trimmed between-text `hi`. -/
theorem C3_witness : extractManualZone zoneSample = some (("hi").data) :=
  ((C3_extract_amended zoneSample).1 0 21 (by decide) (by decide) (by decide)).trans (by decide)

/-! ## Parser invariants -/

theorem findFrom_bounds (pat hay : Str) (i j : Nat) (hp : pat ≠ [])
    (h : findFrom pat hay i = some j) : i ≤ j ∧ j + pat.length ≤ hay.length := by
  unfold findFrom at h
  rcases Option.map_eq_some'.mp h with ⟨k, hk, hij⟩
  have hocc := ((findFromAux_some_iff pat _ k).mp hk).1
  have hlen := occursAt_le_length pat (hay.drop i) k hp hocc
  rw [List.length_drop] at hlen
  have hp1 : 0 < pat.length := List.length_pos.mpr hp
  omega

theorem phase1Aux_some_bounds :
    ∀ (rest : Str) (i : Nat) (pd : Int) (fp sk : Bool) (j : Nat),
      phase1Aux rest i pd fp sk = some j → i < j ∧ j ≤ i + rest.length := by
  intro rest
  induction rest with
  | nil => intro i pd fp sk j h; simp [phase1Aux] at h
  | cons c t ih =>
    intro i pd fp sk j h
    rw [phase1Aux] at h
    split_ifs at h
    all_goals
      try (obtain ⟨hb1, hb2⟩ := ih _ _ _ _ _ h; simp only [List.length_cons]; omega)
    all_goals
      (have hj := Option.some.inj h; simp only [List.length_cons]; omega)

theorem phase2Aux_bounds : ∀ (rest : Str) (i : Nat) (d : Int),
    phase2Aux rest i d = -1 ∨
      ∃ m : Nat, phase2Aux rest i d = (m : Int) ∧ i < m ∧ m ≤ i + rest.length := by
  intro rest
  induction rest with
  | nil => intro i d; left; rfl
  | cons c t ih =>
    intro i d
    rw [phase2Aux]
    split_ifs
    · rcases ih (i + 1) (d + 1) with h | ⟨m, hm, h1, h2⟩
      · left; exact h
      · right; exact ⟨m, hm, by omega, by simp only [List.length_cons]; omega⟩
    · right; exact ⟨i + 1, rfl, by omega, by simp only [List.length_cons]; omega⟩
    · rcases ih (i + 1) (d - 1) with h | ⟨m, hm, h1, h2⟩
      · left; exact h
      · right; exact ⟨m, hm, by omega, by simp only [List.length_cons]; omega⟩
    · rcases ih (i + 1) d with h | ⟨m, hm, h1, h2⟩
      · left; exact h
      · right; exact ⟨m, hm, by omega, by simp only [List.length_cons]; omega⟩

theorem findBrace_cases (content : Str) (s : Nat) :
    findMatchingClosingBrace content s = -1 ∨
      ∃ m : Nat, findMatchingClosingBrace content s = (m : Int) ∧ s < m ∧ m ≤ content.length := by
  unfold findMatchingClosingBrace
  rcases h1 : phase1Aux (content.drop s) s 0 false false with _ | j
  · left; rfl
  · obtain ⟨hj1, hj2⟩ := phase1Aux_some_bounds _ _ _ _ _ _ h1
    rw [List.length_drop] at hj2
    rcases phase2Aux_bounds (content.drop j) j 1 with h2 | ⟨m, hm, hm1, hm2⟩
    · left; exact h2
    · right
      rw [List.length_drop] at hm2
      exact ⟨m, hm, by omega, by omega⟩

theorem parseLoopF_succ_none (content : Str) (fuel i : Nat)
    (hf : findFrom describeToken content i = none) :
    parseLoopF content (fuel + 1) i = [] := by
  rw [parseLoopF, hf]

theorem parseLoopF_succ_some (content : Str) (fuel i dm : Nat)
    (hf : findFrom describeToken content i = some dm) :
    parseLoopF content (fuel + 1) i =
      if countCh lbrace (content.take dm) = countCh rbrace (content.take dm) then
        if (dm : Int) < findMatchingClosingBrace content dm then
          mkTestBlock content dm (findMatchingClosingBrace content dm).toNat ::
            parseLoopF content fuel (findMatchingClosingBrace content dm).toNat
        else parseLoopF content fuel (dm + 1)
      else parseLoopF content fuel (dm + 1) := by
  rw [parseLoopF, hf]

theorem parseLoopF_mem (content : Str) :
    ∀ (fuel i : Nat) (b : TestBlock), b ∈ parseLoopF content fuel i →
      i ≤ b.startIndex ∧ b.startIndex < b.endIndex ∧ b.endIndex ≤ content.length ∧
        b.content = seg content b.startIndex b.endIndex := by
  intro fuel
  induction fuel with
  | zero => intro i b hb; simp [parseLoopF] at hb
  | succ fuel ih =>
    intro i b hb
    rcases hf : findFrom describeToken content i with _ | dm
    · rw [parseLoopF_succ_none content fuel i hf] at hb; simp at hb
    · rw [parseLoopF_succ_some content fuel i dm hf] at hb
      obtain ⟨hidm, hdml⟩ := findFrom_bounds describeToken content i dm (by decide) hf
      by_cases htop : countCh lbrace (content.take dm) = countCh rbrace (content.take dm)
      · rw [if_pos htop] at hb
        rcases findBrace_cases content dm with hbe | ⟨m, hbe, hdm, hml⟩
        · rw [hbe] at hb
          rw [if_neg (by omega : ¬ ((dm : Int) < -1))] at hb
          obtain ⟨h1, h2, h3, h4⟩ := ih (dm + 1) b hb
          exact ⟨by omega, h2, h3, h4⟩
        · rw [hbe] at hb
          rw [if_pos (by exact_mod_cast hdm)] at hb
          rw [Int.toNat_natCast] at hb
          rcases List.mem_cons.mp hb with rfl | hb2
          · exact ⟨hidm, hdm, hml, rfl⟩
          · obtain ⟨h1, h2, h3, h4⟩ := ih m b hb2
            exact ⟨by omega, h2, h3, h4⟩
      · rw [if_neg htop] at hb
        obtain ⟨h1, h2, h3, h4⟩ := ih (dm + 1) b hb
        exact ⟨by omega, h2, h3, h4⟩

theorem parseLoopF_sorted (content : Str) :
    ∀ (fuel i : Nat), blocksOrdered (parseLoopF content fuel i) := by
  intro fuel
  induction fuel with
  | zero => intro i; exact trivial
  | succ fuel ih =>
    intro i
    rcases hf : findFrom describeToken content i with _ | dm
    · rw [parseLoopF_succ_none content fuel i hf]; exact trivial
    · rw [parseLoopF_succ_some content fuel i dm hf]
      by_cases htop : countCh lbrace (content.take dm) = countCh rbrace (content.take dm)
      · rw [if_pos htop]
        rcases findBrace_cases content dm with hbe | ⟨m, hbe, hdm, hml⟩
        · rw [hbe, if_neg (by omega : ¬ ((dm : Int) < -1))]; exact ih _
        · rw [hbe, if_pos (by exact_mod_cast hdm), Int.toNat_natCast]
          rcases hL : parseLoopF content fuel m with _ | ⟨c, t⟩
          · exact trivial
          · constructor
            · exact (parseLoopF_mem content fuel m c (by rw [hL]; exact List.mem_cons_self c t)).1
            · have h := ih m
              rw [hL] at h
              exact h
      · rw [if_neg htop]; exact ih _

/-! ## Reconstruction machinery -/

theorem getLast?_eq_lastBlockD :
    ∀ (rest : List TestBlock) (b : TestBlock),
      (b :: rest).getLast? = some (lastBlockD b rest) := by
  intro rest
  induction rest with
  | nil => intro b; rfl
  | cons c t ih => intro b; rw [List.getLast?_cons_cons]; exact ih c

theorem drop_eq_seg_append (s : Str) (i j : Nat) (hij : i ≤ j) :
    s.drop i = seg s i j ++ s.drop j := by
  unfold seg
  conv_lhs => rw [← List.take_append_drop (j - i) (s.drop i)]
  rw [List.drop_drop]
  congr 2
  omega

theorem interleave_ws_prepend (g t : Str) (xs : List Str)
    (hg : wsOnly g = true) (h : InterleavesWS xs t) : InterleavesWS xs (g ++ t) := by
  cases xs with
  | nil =>
    have ht : wsOnly t = true := h
    show wsOnly (g ++ t) = true
    unfold wsOnly at hg ht ⊢
    simp [List.all_append, hg, ht]
  | cons x xs =>
    obtain ⟨w, t', hw, heq, h'⟩ := h
    refine ⟨g ++ w, t', ?_, ?_, h'⟩
    · unfold wsOnly at hg hw ⊢
      simp [List.all_append, hg, hw]
    · rw [heq]; simp [List.append_assoc]

theorem blocks_interleave (content : Str) :
    ∀ (rest : List TestBlock) (b : TestBlock),
      blocksWF content (b :: rest) → blocksOrdered (b :: rest) →
      gapsWSOnly content (b :: rest) = true →
      InterleavesWS
        (((b :: rest).map fun x => x.content) ++
          [jsTrim (content.drop (lastBlockD b rest).endIndex)])
        (content.drop b.startIndex) := by
  intro rest
  induction rest with
  | nil =>
    intro b hwf _ _
    obtain ⟨hlt, hle, hc⟩ := hwf b (List.mem_cons_self b [])
    refine ⟨[], content.drop b.endIndex, rfl, ?_, ?_⟩
    · show content.drop b.startIndex = b.content ++ content.drop b.endIndex
      rw [hc]
      exact drop_eq_seg_append content b.startIndex b.endIndex (le_of_lt hlt)
    · obtain ⟨w₁, w₂, hw₁, hw₂, hdec⟩ := jsTrim_decomp (content.drop b.endIndex)
      exact ⟨w₁, w₂, hw₁, hdec, hw₂⟩
  | cons c t ih =>
    intro b hwf hord hgaps
    obtain ⟨hlt, hle, hc⟩ := hwf b (List.mem_cons_self b (c :: t))
    obtain ⟨hbc, hord2⟩ := hord
    simp only [gapsWSOnly, Bool.and_eq_true] at hgaps
    obtain ⟨hg1, hg2⟩ := hgaps
    have hwf2 : blocksWF content (c :: t) := fun x hx => hwf x (List.mem_cons_of_mem b hx)
    have hIH := ih c hwf2 hord2 hg2
    refine ⟨[], content.drop b.endIndex, rfl, ?_, ?_⟩
    · show content.drop b.startIndex = b.content ++ content.drop b.endIndex
      rw [hc]
      exact drop_eq_seg_append content b.startIndex b.endIndex (le_of_lt hlt)
    · show InterleavesWS
        (((c :: t).map fun x => x.content) ++
          [jsTrim (content.drop (lastBlockD c t).endIndex)])
        (content.drop b.endIndex)
      rw [drop_eq_seg_append content b.endIndex c.startIndex hbc]
      exact interleave_ws_prepend _ _ _ hg1 hIH

/-! ## Claims C9 and C4 -/

/-- Claim C9: `parseTestFile` is total and exception-free; the scanner
returns the sentinel `-1` on the claim's unterminated input, the
partitioner yields zero blocks with empty header and footer there, and
every block it ever emits has a positive-length range inside the file
(occurrences whose scan fails are skipped, never emitted). -/
theorem C9_parser_safety :
    findMatchingClosingBrace unterminatedInput 0 = -1 ∧
    parseTestFile unterminatedInput = { header := [], testBlocks := [], footer := [] } ∧
    ∀ (content : Str) (b : TestBlock), b ∈ (parseTestFile content).testBlocks →
      b.startIndex < b.endIndex ∧ b.endIndex ≤ content.length := by
  refine ⟨by decide, by decide, ?_⟩
  intro content b hb
  have h := parseLoopF_mem content (content.length + 1) 0 b hb
  exact ⟨h.2.1, h.2.2.1⟩

/-- Witness for C9 on a file whose single block spans `[0, 18)`. -/
theorem C9_witness :
    (mkTestBlock blockSample 0 18).startIndex < (mkTestBlock blockSample 0 18).endIndex ∧
    (mkTestBlock blockSample 0 18).endIndex ≤ blockSample.length :=
  C9_parser_safety.2.2 blockSample (mkTestBlock blockSample 0 18) (by decide)

/-- Claim C4, counterexample: on a file with two top-level blocks
separated by the non-whitespace character `X`, that character appears in
the original but in neither the header, any block content, nor the footer
— the text between consecutive blocks is dropped, so the concatenation
does not reconstruct the file up to whitespace. -/
theorem C4_counterexample :
    (parseTestFile twoBlocksLost).testBlocks.length = 2 ∧
    Char.ofNat 88 ∈ twoBlocksLost ∧
    isJsWS (Char.ofNat 88) = false ∧
    Char.ofNat 88 ∉
      ((parseTestFile twoBlocksLost).header ++
        ((parseTestFile twoBlocksLost).testBlocks.map fun b => b.content).flatten ++
        (parseTestFile twoBlocksLost).footer) := by
  decide

/-- Claim C4, amended: for every file on which `parseTestFile` yields at
least one block and in which the text strictly between consecutive blocks
is whitespace-only, the original text is the header, the block contents in
order, and the footer with only whitespace interleaved at the seams —
so no non-whitespace text outside the inter-block gaps is lost.  (When
non-whitespace text lies strictly between two consecutive blocks it is
dropped, as the counterexample shows.) -/
theorem C4_reconstruction_amended (content : Str)
    (hne : (parseTestFile content).testBlocks ≠ [])
    (hgaps : gapsWSOnly content (parseTestFile content).testBlocks = true) :
    InterleavesWS
      ((parseTestFile content).header ::
        (((parseTestFile content).testBlocks.map fun b => b.content) ++
          [(parseTestFile content).footer]))
      content := by
  have hblocks : (parseTestFile content).testBlocks =
      parseLoopF content (content.length + 1) 0 := rfl
  rcases hL : parseLoopF content (content.length + 1) 0 with _ | ⟨b, rest⟩
  · exact absurd (hblocks.trans hL) hne
  have hhead : (parseTestFile content).header = jsTrim (content.take b.startIndex) := by
    simp [parseTestFile, hL]
  have hfoot : (parseTestFile content).footer =
      jsTrim (content.drop (lastBlockD b rest).endIndex) := by
    simp [parseTestFile, hL, getLast?_eq_lastBlockD]
  have hwf : blocksWF content (b :: rest) := by
    intro x hx
    rw [← hL] at hx
    have h := parseLoopF_mem content (content.length + 1) 0 x hx
    exact ⟨h.2.1, h.2.2.1, h.2.2.2⟩
  have hord : blocksOrdered (b :: rest) := by
    have h := parseLoopF_sorted content (content.length + 1) 0
    rw [hL] at h
    exact h
  have hg : gapsWSOnly content (b :: rest) = true := by
    rw [hblocks, hL] at hgaps
    exact hgaps
  have hstart0 := (parseLoopF_mem content (content.length + 1) 0 b
    (by rw [hL]; exact List.mem_cons_self b rest)).1
  obtain ⟨w₁, w₂, hw₁, hw₂, hdec⟩ := jsTrim_decomp (content.take b.startIndex)
  rw [hblocks, hL, hhead, hfoot]
  refine ⟨w₁, w₂ ++ content.drop b.startIndex, hw₁, ?_, ?_⟩
  · conv_lhs => rw [← List.take_append_drop b.startIndex content]
    conv_lhs => rw [hdec]
    simp [List.append_assoc]
  · exact interleave_ws_prepend _ _ _ hw₂
      (blocks_interleave content rest b hwf hord hg)

/-- Witness for C4's amended theorem: two blocks separated by whitespace,
with header and footer text, reconstruct the file up to seam whitespace. -/
theorem C4_witness :
    InterleavesWS
      ((parseTestFile twoBlocksWS).header ::
        (((parseTestFile twoBlocksWS).testBlocks.map fun b => b.content) ++
          [(parseTestFile twoBlocksWS).footer]))
      twoBlocksWS :=
  C4_reconstruction_amended twoBlocksWS (by decide) (by decide)

/-! ## Occurrence lemmas for the zone re-injection proof -/

theorem occursAt_mono_pre (pat1 pat2 hay : Str) (i : Nat) (hp : pat1 <+: pat2)
    (h : occursAt pat2 hay i = true) : occursAt pat1 hay i = true := by
  unfold occursAt at *
  exact List.isPrefixOf_iff_prefix.mpr (hp.trans (List.isPrefixOf_iff_prefix.mp h))

theorem occursAt_append_right_ext (pat A B : Str) (k : Nat)
    (h : occursAt pat B k = true) : occursAt pat (A ++ B) (A.length + k) = true := by
  unfold occursAt at *
  rw [List.drop_append]
  exact h

theorem occursAt_append_left_ext (pat A B : Str) (k : Nat) (hp : pat ≠ [])
    (h : occursAt pat A k = true) : occursAt pat (A ++ B) k = true := by
  have hk := occursAt_le_length pat A k hp h
  unfold occursAt at *
  rw [List.drop_append_of_le_length (by omega)]
  exact List.isPrefixOf_iff_prefix.mpr
    ((List.isPrefixOf_iff_prefix.mp h).trans (List.prefix_append _ _))

theorem occursAt_nil_of_ne (pat : Str) (hp : pat ≠ []) (k : Nat) :
    occursAt pat ([] : Str) k = false := by
  unfold occursAt
  rw [List.drop_nil]
  cases hh : pat.isPrefixOf ([] : Str) with
  | false => rfl
  | true => exact absurd (List.prefix_nil.mp (List.isPrefixOf_iff_prefix.mp hh)) hp

theorem occursAt_get (pat hay : Str) (i : Nat) (h : occursAt pat hay i = true)
    (m : Nat) (hm : m < pat.length) : hay[i + m]? = pat[m]? := by
  unfold occursAt at h
  obtain ⟨t, ht⟩ := List.isPrefixOf_iff_prefix.mp h
  rw [← List.getElem?_drop, ← ht, List.getElem?_append, if_pos hm]

theorem occursAt_of_get (pat hay : Str) (i : Nat)
    (h : ∀ m < pat.length, hay[i + m]? = pat[m]?) : occursAt pat hay i = true := by
  unfold occursAt
  apply List.isPrefixOf_iff_prefix.mpr
  rw [List.prefix_iff_eq_take]
  apply List.ext_getElem?
  intro n
  by_cases hn : n < pat.length
  · rw [List.getElem?_take, if_pos hn, List.getElem?_drop]
    exact (h n hn).symm
  · rw [List.getElem?_take, if_neg hn]
    exact List.getElem?_eq_none (by omega)

theorem occursAt_append_sep (pat A B : Str) (sep : Char) (hsep : sep ∉ pat)
    (hp : pat ≠ []) (i : Nat) (h : occursAt pat (A ++ sep :: B) i = true) :
    (occursAt pat A i = true ∧ i + pat.length ≤ A.length) ∨
      (A.length + 1 ≤ i ∧ occursAt pat B (i - A.length - 1) = true) := by
  by_cases h1 : i + pat.length ≤ A.length
  · left
    refine ⟨?_, h1⟩
    unfold occursAt at h ⊢
    rw [List.drop_append_of_le_length (by omega)] at h
    have hpre := List.isPrefixOf_iff_prefix.mp h
    rw [List.prefix_iff_eq_take,
      List.take_append_of_le_length (by rw [List.length_drop]; omega)] at hpre
    exact List.isPrefixOf_iff_prefix.mpr (List.prefix_iff_eq_take.mpr hpre)
  · by_cases h2 : A.length + 1 ≤ i
    · right
      refine ⟨h2, ?_⟩
      unfold occursAt at h ⊢
      have he : A ++ sep :: B = (A ++ [sep]) ++ B := by simp
      rw [he, show i = (A ++ [sep]).length + (i - A.length - 1) by simp; omega,
        List.drop_append] at h
      exact h
    · exfalso
      have hplen : 0 < pat.length := List.length_pos.mpr hp
      have hchar := occursAt_get pat (A ++ sep :: B) i h (A.length - i) (by omega)
      have hA : (A ++ sep :: B)[A.length]? = some sep := by
        rw [List.getElem?_append_right (le_refl _)]
        simp
      rw [show i + (A.length - i) = A.length by omega, hA] at hchar
      refine hsep ?_
      have h3 := hchar.symm
      rw [List.getElem?_eq_some] at h3
      obtain ⟨hlt, hgs⟩ := h3
      exact hgs ▸ List.getElem_mem hlt

theorem occursAt_cons_sep (pat B : Str) (sep : Char) (hsep : sep ∉ pat)
    (hp : pat ≠ []) (i : Nat) (h : occursAt pat (sep :: B) i = true) :
    1 ≤ i ∧ occursAt pat B (i - 1) = true := by
  have hstep := occursAt_append_sep pat [] B sep hsep hp i (by simpa using h)
  rcases hstep with ⟨_, h2⟩ | ⟨h1, h2⟩
  · have := List.length_pos.mpr hp
    simp only [List.length_nil] at h2
    omega
  · simpa using ⟨h1, h2⟩

theorem occursAt_seg_lift (pat s : Str) (i j m : Nat)
    (h : occursAt pat (seg s i j) m = true) : occursAt pat s (i + m) = true := by
  unfold occursAt seg at *
  rw [List.drop_take, List.drop_drop] at h
  have hpre := (List.isPrefixOf_iff_prefix.mp h).trans (List.take_prefix _ _)
  exact List.isPrefixOf_iff_prefix.mpr hpre

theorem occursAt_jsTrim_exists (pat s : Str) (hp : pat ≠ []) (k : Nat)
    (h : occursAt pat (jsTrim s) k = true) : ∃ m, occursAt pat s m = true := by
  obtain ⟨w₁, w₂, _, _, hdec⟩ := jsTrim_decomp s
  refine ⟨w₁.length + k, ?_⟩
  rw [hdec, List.append_assoc]
  exact occursAt_append_right_ext _ _ _ _ (occursAt_append_left_ext _ _ _ _ hp h)

theorem jsSubstring_length_le (s : Str) (a b : Nat) :
    (jsSubstring s a b).length ≤ max a b - min a b := by
  unfold jsSubstring seg
  simp only [List.length_take, List.length_drop]
  omega

theorem seg_length (s : Str) (i j : Nat) (hj : j ≤ s.length) :
    (seg s i j).length = j - i := by
  unfold seg
  simp only [List.length_take, List.length_drop]
  omega

/-! ## Splice and intercalate lemmas -/

theorem findIndexAux_take_drop (p : Str → Bool) (l : List Str) :
    l.take ((findIndexAux p l).getD l.length) = l.takeWhile (fun x => !p x) ∧
    l.drop ((findIndexAux p l).getD l.length) = l.dropWhile (fun x => !p x) := by
  induction l with
  | nil => exact ⟨rfl, rfl⟩
  | cons a l ih =>
    obtain ⟨ih1, ih2⟩ := ih
    cases hp : p a with
    | true =>
      refine ⟨?_, ?_⟩ <;>
        simp [findIndexAux, hp, List.takeWhile_cons, List.dropWhile_cons]
    | false =>
      rcases hl : findIndexAux p l with _ | k
      · rw [hl] at ih1 ih2
        simp only [Option.getD_none] at ih1 ih2
        refine ⟨?_, ?_⟩ <;>
          simp [findIndexAux, hp, hl, List.takeWhile_cons, List.dropWhile_cons,
            List.take_succ_cons, List.drop_succ_cons, ih1, ih2]
      · rw [hl] at ih1 ih2
        simp only [Option.getD_some] at ih1 ih2
        refine ⟨?_, ?_⟩ <;>
          simp [findIndexAux, hp, hl, List.takeWhile_cons, List.dropWhile_cons,
            List.take_succ_cons, List.drop_succ_cons, ih1, ih2]

theorem head_dropWhile_false (p : Str → Bool) :
    ∀ (l : List Str) (x : Str), ((l.dropWhile fun y => !p y).head? = some x) → p x = true := by
  intro l
  induction l with
  | nil => intro x hx; simp at hx
  | cons a l ih =>
    intro x hx
    cases hp : p a with
    | true =>
      rw [List.dropWhile_cons] at hx
      simp only [hp, Bool.not_true, Bool.false_eq_true, if_false, List.head?_cons,
        Option.some.injEq] at hx
      rw [← hx]
      exact hp
    | false =>
      rw [List.dropWhile_cons] at hx
      simp only [hp, Bool.not_false, if_true] at hx
      exact ih x hx

theorem splitOn_nl_ne_nil (ts : Str) : ts.splitOn nlChar ≠ [] :=
  List.splitOnP_ne_nil _ ts

theorem intercalate_nl_cons₂ (a b : Str) (l : List Str) :
    [nlChar].intercalate (a :: b :: l) = a ++ nlChar :: [nlChar].intercalate (b :: l) := by
  rw [List.intercalate, List.intercalate, List.intersperse_cons_cons, List.flatten_cons,
    List.flatten_cons]
  simp

theorem intercalate_nl_singleton (a : Str) : [nlChar].intercalate [a] = a := by
  rw [List.intercalate]
  simp

theorem intercalate_nl_append (A C : List Str) (hA : A ≠ []) (hC : C ≠ []) :
    [nlChar].intercalate (A ++ C) =
      [nlChar].intercalate A ++ nlChar :: [nlChar].intercalate C := by
  induction A with
  | nil => exact absurd rfl hA
  | cons a A ih =>
    cases A with
    | nil =>
      rcases C with _ | ⟨c, C⟩
      · exact absurd rfl hC
      · rw [List.singleton_append, intercalate_nl_cons₂, intercalate_nl_singleton]
    | cons a2 A2 =>
      have ih2 := ih (by simp)
      show [nlChar].intercalate (a :: a2 :: (A2 ++ C)) =
        [nlChar].intercalate (a :: a2 :: A2) ++ nlChar :: [nlChar].intercalate C
      rw [intercalate_nl_cons₂, intercalate_nl_cons₂ a a2 A2]
      rw [show a2 :: (A2 ++ C) = (a2 :: A2) ++ C from rfl, ih2]
      simp [List.append_assoc]

/-- An extracted manual-zone payload never contains the end marker: the
extraction stops at the end marker's first occurrence, and in the
overlapping-marker case the swapped substring is shorter than the end
marker. -/
theorem extract_payload_no_end (orig p : Str) (h : extractManualZone orig = some p) :
    ∀ k, occursAt MANUAL_END p k = false := by
  intro k
  rcases hS : findFrom MANUAL_START orig 0 with _ | s
  · simp only [extractManualZone, hS] at h
    exact absurd h (by simp)
  · rcases hE : findFrom MANUAL_END orig 0 with _ | e
    · simp only [extractManualZone, hS, hE] at h
      exact absurd h (by simp)
    · simp only [extractManualZone, hS, hE] at h
      by_cases hlt : s < e
      · rw [if_pos hlt, Option.some.injEq] at h
        have hp2 : p = jsTrim (jsSubstring orig (s + MANUAL_START.length) e) := h.symm
        subst hp2
        have hfe := (findFrom_zero_eq_some_iff MANUAL_END orig e).mp hE
        cases hocc : occursAt MANUAL_END
            (jsTrim (jsSubstring orig (s + MANUAL_START.length) e)) k with
        | false => rfl
        | true =>
          exfalso
          obtain ⟨m, hm⟩ := occursAt_jsTrim_exists MANUAL_END
            (jsSubstring orig (s + MANUAL_START.length) e) (by decide) k hocc
          by_cases hov : s + MANUAL_START.length ≤ e
          · have he_len : e + MANUAL_END.length ≤ orig.length :=
              occursAt_le_length _ _ _ (by decide) hfe.1
            rw [jsSubstring_eq_seg orig _ e hov (by omega)] at hm
            have hb := occursAt_le_length _ _ _ (by decide : MANUAL_END ≠ ([] : Str)) hm
            rw [seg_length orig _ e (by omega)] at hb
            have h20 : MANUAL_END.length = 20 := by decide
            have hlift := occursAt_seg_lift MANUAL_END orig (s + MANUAL_START.length) e m hm
            rw [hfe.2 _ (by omega)] at hlift
            exact absurd hlift (by simp)
          · have hlen := jsSubstring_length_le orig (s + MANUAL_START.length) e
            have hb := occursAt_le_length _ _ _ (by decide : MANUAL_END ≠ ([] : Str)) hm
            have h19 : MANUAL_START.length = 19 := by decide
            have h20 : MANUAL_END.length = 20 := by decide
            omega
      · rw [if_neg hlt] at h
        exact absurd h (by simp)

/-- The guard splices the zone block exactly before the first substantive
line (or at the end when every line is a comment, an import or blank). -/
theorem inject_splice_form (ts p : Str) :
    ∃ L1 L2, ts.splitOn nlChar = L1 ++ L2 ∧
      (∀ l ∈ L1, isSubstantiveLine l = false) ∧
      (∀ l, L2.head? = some l → isSubstantiveLine l = true) ∧
      injectManualZone ts p = [nlChar].intercalate (L1 ++ [manualBlock p] ++ L2) := by
  refine ⟨(ts.splitOn nlChar).takeWhile (fun x => !isSubstantiveLine x),
    (ts.splitOn nlChar).dropWhile (fun x => !isSubstantiveLine x), ?_, ?_, ?_, ?_⟩
  · exact (List.takeWhile_append_dropWhile _ _).symm
  · intro l hl
    have h2 := List.mem_takeWhile_imp hl
    simpa using h2
  · intro l hl
    exact head_dropWhile_false isSubstantiveLine (ts.splitOn nlChar) l hl
  · obtain ⟨h1, h2⟩ := findIndexAux_take_drop isSubstantiveLine (ts.splitOn nlChar)
    simp only [injectManualZone]
    rw [h1, h2]

/-- Shape of the guard's output on a script free of the start marker: a
start-marker-free prefix, then on lines of their own the start marker, the
payload and the end marker, then a start-marker-free suffix. -/
theorem inject_decomp (ts p : Str) (hts : ∀ k, occursAt MANUAL_START ts k = false) :
    ∃ X Y : Str,
      injectManualZone ts p =
        X ++ nlChar :: (MANUAL_START ++ nlChar :: (p ++ nlChar :: (MANUAL_END ++ nlChar :: Y))) ∧
      (∀ k, occursAt MANUAL_START X k = false) ∧
      (∀ k, occursAt MANUAL_START Y k = false) := by
  obtain ⟨L1, L2, hsplit, _, _, hform⟩ := inject_splice_form ts p
  have hts2 : [nlChar].intercalate (L1 ++ L2) = ts := by
    rw [← hsplit]; exact List.intercalate_splitOn ts nlChar
  rcases L1 with _ | ⟨t0, T1⟩
  · rcases L2 with _ | ⟨u0, T2⟩
    · exact absurd (by simpa using hsplit) (splitOn_nl_ne_nil ts)
    · have hJ2 : [nlChar].intercalate (u0 :: T2) = ts := by simpa using hts2
      refine ⟨[], nlChar :: ts, ?_, ?_, ?_⟩
      · rw [hform]
        rw [show ([] : List Str) ++ [manualBlock p] ++ (u0 :: T2) =
            manualBlock p :: u0 :: T2 by simp]
        rw [intercalate_nl_cons₂, hJ2]
        simp [manualBlock, List.append_assoc]
      · exact fun k => occursAt_nil_of_ne MANUAL_START (by decide) k
      · intro k
        cases hc : occursAt MANUAL_START (nlChar :: ts) k with
        | false => rfl
        | true =>
          exfalso
          obtain ⟨_, h2⟩ := occursAt_cons_sep MANUAL_START ts nlChar (by decide) (by decide) k hc
          rw [hts _] at h2
          exact absurd h2 (by simp)
  · rcases L2 with _ | ⟨u0, T2⟩
    · have hJ1 : [nlChar].intercalate (t0 :: T1) = ts := by simpa using hts2
      refine ⟨ts ++ [nlChar], [], ?_, ?_, ?_⟩
      · rw [hform]
        rw [show (t0 :: T1) ++ [manualBlock p] ++ ([] : List Str) =
            (t0 :: T1) ++ [manualBlock p] by simp]
        rw [intercalate_nl_append (t0 :: T1) [manualBlock p] (by simp) (by simp)]
        rw [intercalate_nl_singleton, hJ1]
        simp [manualBlock, List.append_assoc]
      · intro k
        cases hc : occursAt MANUAL_START (ts ++ [nlChar]) k with
        | false => rfl
        | true =>
          exfalso
          rcases occursAt_append_sep MANUAL_START ts [] nlChar (by decide) (by decide) k hc with
            ⟨h1, _⟩ | ⟨_, h2⟩
          · rw [hts _] at h1
            exact absurd h1 (by simp)
          · rw [occursAt_nil_of_ne MANUAL_START (by decide) _] at h2
            exact absurd h2 (by simp)
      · exact fun k => occursAt_nil_of_ne MANUAL_START (by decide) k
    · have htseq : ts =
          [nlChar].intercalate (t0 :: T1) ++ nlChar :: [nlChar].intercalate (u0 :: T2) := by
        rw [← hts2, intercalate_nl_append (t0 :: T1) (u0 :: T2) (by simp) (by simp)]
      refine ⟨[nlChar].intercalate (t0 :: T1) ++ [nlChar],
        nlChar :: [nlChar].intercalate (u0 :: T2), ?_, ?_, ?_⟩
      · rw [hform]
        rw [show (t0 :: T1) ++ [manualBlock p] ++ (u0 :: T2) =
            (t0 :: T1) ++ ([manualBlock p] ++ (u0 :: T2)) by simp]
        rw [intercalate_nl_append (t0 :: T1) ([manualBlock p] ++ (u0 :: T2)) (by simp) (by simp)]
        rw [show [manualBlock p] ++ (u0 :: T2) = manualBlock p :: u0 :: T2 by simp]
        rw [intercalate_nl_cons₂]
        simp [manualBlock, List.append_assoc]
      · intro k
        cases hc : occursAt MANUAL_START ([nlChar].intercalate (t0 :: T1) ++ [nlChar]) k with
        | false => rfl
        | true =>
          exfalso
          rcases occursAt_append_sep MANUAL_START ([nlChar].intercalate (t0 :: T1)) [] nlChar
              (by decide) (by decide) k hc with ⟨h1, _⟩ | ⟨_, h2⟩
          · have hext := occursAt_append_left_ext MANUAL_START
              ([nlChar].intercalate (t0 :: T1))
              (nlChar :: [nlChar].intercalate (u0 :: T2)) k (by decide) h1
            rw [← htseq, hts _] at hext
            exact absurd hext (by simp)
          · rw [occursAt_nil_of_ne MANUAL_START (by decide) _] at h2
            exact absurd h2 (by simp)
      · intro k
        cases hc : occursAt MANUAL_START (nlChar :: [nlChar].intercalate (u0 :: T2)) k with
        | false => rfl
        | true =>
          exfalso
          obtain ⟨_, h2⟩ := occursAt_cons_sep MANUAL_START ([nlChar].intercalate (u0 :: T2))
            nlChar (by decide) (by decide) k hc
          have hext := occursAt_append_right_ext MANUAL_START
            ([nlChar].intercalate (t0 :: T1) ++ [nlChar])
            ([nlChar].intercalate (u0 :: T2)) (k - 1) h2
          rw [show ([nlChar].intercalate (t0 :: T1) ++ [nlChar]) ++
              [nlChar].intercalate (u0 :: T2) =
              [nlChar].intercalate (t0 :: T1) ++ nlChar :: [nlChar].intercalate (u0 :: T2)
            by simp] at hext
          rw [← htseq, hts _] at hext
          exact absurd hext (by simp)

/-- Core uniqueness argument: in a text of the shape produced by the
guard, the reconstructed zone occurs exactly once — at the spliced block.
A second occurrence would have to start at a start-marker occurrence,
which the surrounding text cannot contain, the markers themselves cannot
contain off-position, and a start within the payload is ruled out because
the match would place the end marker (or its final slash against a
newline) inside the end-marker-free payload region. -/
theorem zone_occurrence_unique_core (X Y p : Str)
    (hX : ∀ k, occursAt MANUAL_START X k = false)
    (hY : ∀ k, occursAt MANUAL_START Y k = false)
    (hpe : ∀ k, occursAt MANUAL_END p k = false) :
    ∃! i, occursAt (zoneText p)
      (X ++ nlChar :: (MANUAL_START ++ nlChar :: (p ++ nlChar :: (MANUAL_END ++ nlChar :: Y)))) i
      = true := by
  have h19 : MANUAL_START.length = 19 := by decide
  have h20 : MANUAL_END.length = 20 := by decide
  have hZlen : (zoneText p).length = p.length + 41 := by
    simp only [zoneText, List.length_append, List.length_cons, h19, h20]
    omega
  set R := MANUAL_START ++ nlChar :: (p ++ nlChar :: (MANUAL_END ++ nlChar :: Y)) with hR
  set out := X ++ nlChar :: R with hout
  refine ⟨X.length + 1, ?_, ?_⟩
  · show occursAt (zoneText p) out (X.length + 1) = true
    unfold occursAt
    have hdrop : out.drop (X.length + 1) = R := by
      rw [hout, show X ++ nlChar :: R = X ++ ([nlChar] ++ R) by simp, List.drop_append]
      simp
    rw [hdrop, hR]
    apply List.isPrefixOf_iff_prefix.mpr
    refine ⟨nlChar :: Y, ?_⟩
    simp [zoneText, List.append_assoc]
  · intro q hq
    have hSZ : MANUAL_START <+: zoneText p := by
      rw [zoneText]
      exact List.prefix_append _ _
    have hSq : occursAt MANUAL_START out q = true := occursAt_mono_pre _ _ _ _ hSZ hq
    rw [hout] at hSq
    rcases occursAt_append_sep MANUAL_START X R nlChar (by decide) (by decide) q hSq with
      ⟨hA, _⟩ | ⟨hq1, hR1⟩
    · rw [hX q] at hA
      exact absurd hA (by simp)
    rw [hR] at hR1
    rcases occursAt_append_sep MANUAL_START MANUAL_START
        (p ++ nlChar :: (MANUAL_END ++ nlChar :: Y)) nlChar (by decide) (by decide) _ hR1 with
      ⟨_, hb1⟩ | ⟨hq2, hR2⟩
    · omega
    rcases occursAt_append_sep MANUAL_START p (MANUAL_END ++ nlChar :: Y) nlChar
        (by decide) (by decide) _ hR2 with ⟨hAp, hbp⟩ | ⟨hq3, hR3⟩
    · exfalso
      set d := q - X.length - 1 - MANUAL_START.length - 1 with hd
      have hdp : d + 19 ≤ p.length := by omega
      have hWeq : out = (X ++ nlChar :: (MANUAL_START ++ nlChar :: (p ++ [nlChar]))) ++
          (MANUAL_END ++ nlChar :: Y) := by
        rw [hout, hR]
        simp [List.append_assoc]
      have hWlen : (X ++ nlChar :: (MANUAL_START ++ nlChar :: (p ++ [nlChar]))).length =
          X.length + p.length + 22 := by
        simp only [List.length_append, List.length_cons, List.length_singleton,
          List.length_nil, h19]
        omega
      by_cases hd0 : d = 0
      · have hm := occursAt_get (zoneText p) out q hq (p.length + 20) (by omega)
        have hZsplit : zoneText p = (MANUAL_START ++ nlChar :: p) ++ nlChar :: MANUAL_END := by
          simp [zoneText, List.append_assoc]
        have hZnl : (zoneText p)[p.length + 20]? = some nlChar := by
          rw [hZsplit]
          rw [List.getElem?_append_right
            (by simp only [List.length_append, List.length_cons, h19]; omega)]
          rw [show p.length + 20 - (MANUAL_START ++ nlChar :: p).length = 0 by
            simp only [List.length_append, List.length_cons, h19]; omega]
          rfl
        have hOsl : out[X.length + p.length + 41]? = some (Char.ofNat 47) := by
          rw [hWeq]
          rw [List.getElem?_append_right (by rw [hWlen]; omega)]
          rw [hWlen]
          rw [show X.length + p.length + 41 - (X.length + p.length + 22) = 19 by omega]
          rw [List.getElem?_append, if_pos (by omega)]
          decide
        rw [show q + (p.length + 20) = X.length + p.length + 41 by omega] at hm
        rw [hZnl, hOsl] at hm
        exact absurd hm (by decide)
      · have hocc : occursAt MANUAL_END p (p.length - d - 19) = true := by
          apply occursAt_of_get
          intro m hm20
          rw [h20] at hm20
          have h1 : out[X.length + p.length + 22 + m]? = MANUAL_END[m]? := by
            rw [hWeq]
            rw [List.getElem?_append_right (by rw [hWlen]; omega)]
            rw [hWlen]
            rw [show X.length + p.length + 22 + m - (X.length + p.length + 22) = m by omega]
            rw [List.getElem?_append, if_pos (by omega)]
          have h2 := occursAt_get (zoneText p) out q hq (p.length + 1 - d + m) (by omega)
          rw [show q + (p.length + 1 - d + m) = X.length + p.length + 22 + m by omega] at h2
          have hZsplit2 : zoneText p =
              (MANUAL_START ++ [nlChar]) ++ (p ++ nlChar :: MANUAL_END) := by
            simp [zoneText, List.append_assoc]
          have h3 : (zoneText p)[p.length + 1 - d + m]? = p[p.length - d - 19 + m]? := by
            rw [hZsplit2]
            rw [List.getElem?_append_right
              (by simp only [List.length_append, List.length_singleton, h19]; omega)]
            rw [show p.length + 1 - d + m - (MANUAL_START ++ [nlChar]).length =
                p.length - d - 19 + m by
              simp only [List.length_append, List.length_singleton, h19]; omega]
            rw [List.getElem?_append, if_pos (by omega)]
          rw [h3] at h2
          exact h2.symm.trans h1
        rw [hpe _] at hocc
        exact absurd hocc (by simp)
    rcases occursAt_append_sep MANUAL_START MANUAL_END Y nlChar (by decide) (by decide) _ hR3 with
      ⟨hAE, hbE⟩ | ⟨_, hYocc⟩
    · exfalso
      set j := q - X.length - 1 - MANUAL_START.length - 1 - p.length - 1 with hj
      have hj01 : j = 0 ∨ j = 1 := by omega
      rcases hj01 with hj0 | hj1
      · rw [hj0] at hAE
        exact absurd hAE (by decide)
      · rw [hj1] at hAE
        exact absurd hAE (by decide)
    · exfalso
      rw [hY _] at hYocc
      exact absurd hYocc (by simp)

/-- Counterexample to C2: the claim promises exactly one occurrence of the
reconstructed zone for every previously extracted payload, but an extracted
EMPTY payload (adjacent markers in the original file) is the JavaScript
empty string, which is falsy; the guard `if (manualZoneContent && ...)`
then skips the re-injection entirely, and the marker-free regenerated text
is returned unchanged, with zero occurrences of the zone. -/
theorem C2_counterexample :
    extractManualZone emptyZoneOrig = some [] ∧
    hasSubstr MANUAL_START tsPlain = false ∧
    ensureManualZone tsPlain (extractManualZone emptyZoneOrig) = tsPlain ∧
    hasSubstr MANUAL_START (ensureManualZone tsPlain (extractManualZone emptyZoneOrig)) = false := by
  decide

/-- C2 (amended): for every regenerated text free of the start marker and
every previously extracted NONEMPTY payload, the guard's output contains
exactly one occurrence of the reconstructed zone (start marker, newline,
payload, newline, end marker), spliced on a line of its own immediately
before the first line that is neither a `//`-comment, an `import` line nor
blank (or at the end when no such line exists); a missing zone or a text
already holding the start marker is returned unchanged.  An extracted
empty payload is falsy in JavaScript and is treated like a missing zone. -/
theorem C2_zone_reinjection_amended (orig ts q : Str)
    (hex : extractManualZone orig = some q) (hq : q ≠ [])
    (hts : hasSubstr MANUAL_START ts = false) :
    (∃! i, occursAt (zoneText q) (ensureManualZone ts (extractManualZone orig)) i = true) ∧
    (∃ L1 L2, ts.splitOn nlChar = L1 ++ L2 ∧
      (∀ l ∈ L1, isSubstantiveLine l = false) ∧
      (∀ l, L2.head? = some l → isSubstantiveLine l = true) ∧
      ensureManualZone ts (extractManualZone orig) =
        [nlChar].intercalate (L1 ++ [manualBlock q] ++ L2)) ∧
    ensureManualZone ts none = ts ∧
    (∀ ts2, hasSubstr MANUAL_START ts2 = true → ensureManualZone ts2 (some q) = ts2) := by
  have hqE : q.isEmpty = false := by
    cases q with
    | nil => exact absurd rfl hq
    | cons a as => rfl
  have hee : ensureManualZone ts (extractManualZone orig) = injectManualZone ts q := by
    rw [hex]
    simp only [ensureManualZone]
    rw [if_neg (by simp [hqE]), if_neg (by simp [hts])]
  refine ⟨?_, ?_, rfl, ?_⟩
  · obtain ⟨X, Y, hform, hX, hY⟩ :=
      inject_decomp ts q ((hasSubstr_false_iff MANUAL_START ts).mp hts)
    rw [hee, hform]
    exact zone_occurrence_unique_core X Y q hX hY (extract_payload_no_end orig q hex)
  · obtain ⟨L1, L2, hsplit, h1, h2, hform2⟩ := inject_splice_form ts q
    exact ⟨L1, L2, hsplit, h1, h2, by rw [hee]; exact hform2⟩
  · intro ts2 h2
    simp only [ensureManualZone]
    rw [if_neg (by simp [hqE]), if_pos h2]

/-- Witness for C2's amended theorem: the payload `hi` extracted from a
well-formed zone, re-injected into a marker-free script, occurs exactly
once as a reconstructed zone. -/
theorem C2_witness :
    extractManualZone zoneSample = some (("hi").data) ∧
    (("hi").data : Str) ≠ [] ∧
    hasSubstr MANUAL_START tsPlain = false ∧
    (∃! i, occursAt (zoneText (("hi").data))
      (ensureManualZone tsPlain (extractManualZone zoneSample)) i = true) :=
  ⟨by decide, by decide, by decide,
    (C2_zone_reinjection_amended zoneSample tsPlain (("hi").data)
      (by decide) (by decide) (by decide)).1⟩
